import Mathlib

/-!
# Verification of `gen-sql-keywords.py`

Shallow embedding of the keyword-extraction script:

```python
  text = Path("tree-sitter-sql/grammar.js").read_text()

  chunks = []
  chunks.append('export const KEYWORDS = [\n')
  for m in re.finditer(r'kw\("([\w ]+)"\)', text):
    chunks.append("  '" + m.group(1) + "',\n")
  chunks.append(']\n')

  Path("src/sql.ts").write_text(''.join(chunks))
```

The regular expression `kw\("([\w ]+)"\)` is embedded as a direct scanner
over `List Char`.  The character class `[\w ]` matches a word character or
a space; `\w` is modelled over its ASCII range (letters, digits,
underscore).  Because `"` is not in the class, the greedy `[\w ]+` admits
no backtracking: a match at a position succeeds exactly when the literal
`kw("` is followed by a nonempty maximal run of class characters and then
the literal `")`.  `re.finditer` scans left to right, yielding
non-overlapping matches: after a match it resumes right after the match,
and after a failure it advances one character.
-/

/-- `\w` of the pattern, over its ASCII range: letter, digit or underscore. -/
def isWordChar (c : Char) : Bool :=
  c.isAlpha || c.isDigit || c = '_'

/-- A character matched by the class `[\w ]` of the pattern. -/
def isKwChar (c : Char) : Bool :=
  isWordChar c || c = ' '

/-- Attempt to match the regex `kw\("([\w ]+)"\)` at the head of `l`.
On success, return the captured group and the remainder of the input
after the whole match. -/
def matchAt : List Char → Option (List Char × List Char)
  | 'k' :: 'w' :: '(' :: '"' :: rest =>
    let run := rest.takeWhile isKwChar
    if run.isEmpty then none
    else
      match rest.dropWhile isKwChar with
      | '"' :: ')' :: rest3 => some (run, rest3)
      | _ => none
  | _ => none

/-- Fuelled scanner for `re.finditer`: try a match at each position, left to
right; on success emit the captured group and resume after the match, on
failure advance one character. -/
def findAllF : Nat → List Char → List (List Char)
  | 0, _ => []
  | _ + 1, [] => []
  | fuel + 1, c :: cs =>
    match matchAt (c :: cs) with
    | some (kw, rest) => kw :: findAllF fuel rest
    | none => findAllF fuel cs

/-- All captured groups of `re.finditer(r'kw\("([\w ]+)"\)', ·)`, in order
of appearance.  `l.length` fuel suffices because every step consumes at
least one character. -/
def findAll (l : List Char) : List (List Char) :=
  findAllF l.length l

/-- The keywords extracted from the input text, as strings, in source
order (the `m.group(1)` values of the `finditer` loop). -/
def extractKeywords (text : String) : List String :=
  (findAll text.data).map fun l => String.mk l

/-- The `chunks` list built by the script: header line, one line per
keyword, closing line. -/
def chunks (text : String) : List String :=
  ["export const KEYWORDS = [\n"]
    ++ (extractKeywords text).map (fun k => "  '" ++ k ++ "',\n")
    ++ ["]\n"]

/-- The full output text written to `src/sql.ts`: `''.join(chunks)`. -/
def genSqlKeywords (text : String) : String :=
  String.join (chunks text)

/-- The files the script touches: the input grammar and the output file
(`none` when `src/sql.ts` does not exist yet). -/
structure ScriptState where
  grammarJs : String
  sqlTs : Option String
  deriving DecidableEq

/-- One run of the script: read `tree-sitter-sql/grammar.js`, rebuild the
output from it alone, and overwrite `src/sql.ts` with the result
(`Path.write_text` replaces any previous content). -/
def runScript (s : ScriptState) : ScriptState :=
  { grammarJs := s.grammarJs, sqlTs := some (genSqlKeywords s.grammarJs) }

/-- The full text of a pattern occurrence with captured content `k`:
`kw("` ++ `k` ++ `")`. -/
def pat (k : List Char) : List Char :=
  'k' :: 'w' :: '(' :: '"' :: (k ++ ['"', ')'])

/-- A list of characters that `([\w ]+)` can capture: nonempty, all its
characters in the class `[\w ]`. -/
def validKw (k : List Char) : Prop :=
  k ≠ [] ∧ ∀ c ∈ k, isKwChar c = true

instance : DecidablePred validKw := fun k =>
  inferInstanceAs (Decidable (k ≠ [] ∧ ∀ c ∈ k, isKwChar c = true))

/-- A stretch of text with no double-quote character; such text can host
no match of the pattern. -/
def quoteFree (s : List Char) : Prop :=
  ∀ c ∈ s, c ≠ '"'

instance : DecidablePred quoteFree := fun s =>
  inferInstanceAs (Decidable (∀ c ∈ s, c ≠ '"'))

/-! ### Lemmas about `matchAt` -/

theorem takeWhile_append_of_all {p : Char → Bool} {k : List Char} {x : Char}
    {ys : List Char} (hk : ∀ c ∈ k, p c = true) (hx : p x = false) :
    (k ++ x :: ys).takeWhile p = k := by
  induction k with
  | nil => simp [List.takeWhile_cons, hx]
  | cons a k ih =>
    have ha : p a = true := hk a (List.mem_cons_self a k)
    simp only [List.cons_append, List.takeWhile_cons, ha, if_true]
    rw [ih fun c hc => hk c (List.mem_cons_of_mem a hc)]

theorem dropWhile_append_of_all {p : Char → Bool} {k : List Char} {x : Char}
    {ys : List Char} (hk : ∀ c ∈ k, p c = true) (hx : p x = false) :
    (k ++ x :: ys).dropWhile p = x :: ys := by
  induction k with
  | nil => simp [List.dropWhile_cons, hx]
  | cons a k ih =>
    have ha : p a = true := hk a (List.mem_cons_self a k)
    simp only [List.cons_append, List.dropWhile_cons, ha, if_true]
    exact ih fun c hc => hk c (List.mem_cons_of_mem a hc)

/-- Anatomy of a successful match: the input starts with the literal
occurrence `kw("k")` and the remainder is what follows it; the capture is
nonempty and drawn from the class `[\w ]`. -/
theorem matchAt_some_eq {l kw rest : List Char}
    (h : matchAt l = some (kw, rest)) :
    l = pat kw ++ rest ∧ validKw kw := by
  rw [matchAt.eq_def] at h
  split at h
  case h_2 => exact absurd h (by simp)
  case h_1 r =>
    simp only at h
    split at h
    case isTrue => exact absurd h (by simp)
    case isFalse hne =>
      split at h
      case h_2 => exact absurd h (by simp)
      case h_1 rest3 heq =>
        obtain ⟨rfl, rfl⟩ := Prod.mk.injEq .. ▸ Option.some.injEq .. ▸ h
        refine ⟨?_, ?_, ?_⟩
        · have hr : r = r.takeWhile isKwChar ++ ('"' :: ')' :: rest3) := by
            rw [← heq]; exact (List.takeWhile_append_dropWhile ..).symm
          conv_lhs => rw [hr]
          simp [pat]
        · simpa [List.isEmpty_iff] using hne
        · exact fun c hc => List.mem_takeWhile_imp hc

/-- A successful match consumes at least the seven characters of
`kw("k")`. -/
theorem matchAt_length {l kw rest : List Char}
    (h : matchAt l = some (kw, rest)) : rest.length < l.length := by
  obtain ⟨rfl, -⟩ := matchAt_some_eq h
  simp [pat]
  omega

/-- A valid capture at the head of the input matches, and the match
consumes exactly the occurrence `kw("k")`. -/
theorem matchAt_pat {k : List Char} (hk : validKw k) (r : List Char) :
    matchAt (pat k ++ r) = some (k, r) := by
  obtain ⟨hne, hall⟩ := hk
  have hq : isKwChar '"' = false := by decide
  have : pat k ++ r = 'k' :: 'w' :: '(' :: '"' :: (k ++ '"' :: ')' :: r) := by
    simp [pat]
  rw [this]
  simp only [matchAt, takeWhile_append_of_all hall hq,
    dropWhile_append_of_all hall hq]
  simp [List.isEmpty_iff, hne]

/-! ### Lemmas about the scanner -/

theorem findAllF_nil : ∀ f, findAllF f [] = []
  | 0 => rfl
  | _ + 1 => rfl

theorem findAllF_fuel_congr :
    ∀ f1 f2 (l : List Char), l.length ≤ f1 → l.length ≤ f2 →
      findAllF f1 l = findAllF f2 l := by
  intro f1
  induction f1 with
  | zero =>
    intro f2 l h1 _
    rw [List.length_eq_zero.mp (Nat.le_zero.mp h1), findAllF_nil, findAllF_nil]
  | succ f1 ih =>
    intro f2 l h1 h2
    match l with
    | [] => rw [findAllF_nil, findAllF_nil]
    | c :: cs =>
      match f2 with
      | 0 => exact absurd h2 (by simp)
      | f2 + 1 =>
        simp only [findAllF]
        cases h : matchAt (c :: cs) with
        | some p =>
          obtain ⟨kw, rest⟩ := p
          have hlen := matchAt_length h
          have h1' : rest.length ≤ f1 := by
            simp at h1 hlen; omega
          have h2' : rest.length ≤ f2 := by
            simp at h2 hlen; omega
          dsimp only
          rw [ih f2 rest h1' h2']
        | none =>
          have h1' : cs.length ≤ f1 := by simp at h1; omega
          have h2' : cs.length ≤ f2 := by simp at h2; omega
          dsimp only
          rw [ih f2 cs h1' h2']

theorem findAll_nil : findAll [] = [] := rfl

/-- Step lemma for a successful match: `finditer` yields the capture and
resumes right after the match. -/
theorem findAll_match {l kw rest : List Char}
    (h : matchAt l = some (kw, rest)) :
    findAll l = kw :: findAll rest := by
  match l with
  | [] => exact absurd h (by simp [matchAt])
  | c :: cs =>
    have hlen := matchAt_length h
    simp only [findAll, List.length_cons, findAllF, h]
    rw [findAllF_fuel_congr cs.length rest.length rest
      (by simp at hlen; omega) Nat.le.refl]

/-- Step lemma for a failed match: `finditer` advances one character. -/
theorem findAll_no_match {c : Char} {cs : List Char}
    (h : matchAt (c :: cs) = none) :
    findAll (c :: cs) = findAll cs := by
  simp only [findAll, List.length_cons, findAllF, h]

/-- No match can start at the head of `c :: s0 ++ pat k ++ r` when the
separator `s0` has no double quote: the fourth character of a match must
be `"`, and at this position it is a character of `s0` or one of `k`,
`w`, `(`. -/
theorem matchAt_none_cons (c : Char) {s0 : List Char} (hs : quoteFree s0)
    (k r : List Char) : matchAt (c :: (s0 ++ (pat k ++ r))) = none := by
  cases h : matchAt (c :: (s0 ++ (pat k ++ r))) with
  | none => rfl
  | some p =>
    exfalso
    obtain ⟨heq, -⟩ := matchAt_some_eq h
    match s0, hs with
    | [], _ => simp [pat] at heq
    | [d1], _ => simp [pat] at heq
    | [d1, d2], _ => simp [pat] at heq
    | d1 :: d2 :: d3 :: s3, hs =>
      simp only [pat, List.cons_append, List.cons.injEq, List.append_assoc]
        at heq
      exact hs d3 (by simp) heq.2.2.2.1

/-- Scanning past a quote-free separator followed by a pattern occurrence
captures exactly that occurrence, then continues after it. -/
theorem findAll_append_pat {s0 : List Char} (hs : quoteFree s0)
    {k : List Char} (hk : validKw k) (r : List Char) :
    findAll (s0 ++ (pat k ++ r)) = k :: findAll r := by
  induction s0 with
  | nil => simpa using findAll_match (matchAt_pat hk r)
  | cons c s0 ih =>
    have hs' : quoteFree s0 := fun x hx => hs x (List.mem_cons_of_mem c hx)
    rw [List.cons_append, findAll_no_match (matchAt_none_cons c hs' k r),
      ih hs']

/-- Every capture of the scanner is a valid keyword and comes from a
literal occurrence `kw("…")` in the input. -/
theorem findAllF_mem_spec :
    ∀ {f : Nat} {l kw : List Char}, kw ∈ findAllF f l →
      validKw kw ∧ ∃ l1 l2, l = l1 ++ (pat kw ++ l2) := by
  intro f
  induction f with
  | zero => intro l kw h; exact absurd h (by simp [findAllF])
  | succ f ih =>
    intro l kw h
    match l with
    | [] => exact absurd h (by simp [findAllF])
    | c :: cs =>
      simp only [findAllF] at h
      cases hm : matchAt (c :: cs) with
      | some p =>
        obtain ⟨kw0, rest⟩ := p
        rw [hm] at h
        dsimp only at h
        obtain ⟨heq, hv⟩ := matchAt_some_eq hm
        rcases List.mem_cons.mp h with rfl | h
        · exact ⟨hv, [], rest, heq⟩
        · obtain ⟨hkv, l1, l2, hrest⟩ := ih h
          exact ⟨hkv, pat kw0 ++ l1, l2, by simp [heq, hrest]⟩
      | none =>
        rw [hm] at h
        dsimp only at h
        obtain ⟨hkv, l1, l2, hcs⟩ := ih h
        exact ⟨hkv, c :: l1, l2, by simp [hcs]⟩

theorem findAll_mem_spec {l kw : List Char} (h : kw ∈ findAll l) :
    validKw kw ∧ ∃ l1 l2, l = l1 ++ (pat kw ++ l2) :=
  findAllF_mem_spec h

/-- A quote-free text hosts no match at all. -/
theorem findAll_quoteFree {l : List Char} (hl : quoteFree l) :
    findAll l = [] := by
  cases h : findAll l with
  | nil => rfl
  | cons kw tl =>
    exfalso
    have hmem : kw ∈ findAll l := h ▸ List.mem_cons_self kw tl
    obtain ⟨-, l1, l2, heq⟩ := findAll_mem_spec hmem
    exact hl '"' (heq ▸ by simp [pat]) rfl

/-! ### String-level lemmas -/

/-- The line the script emits for one keyword. -/
def renderLine (k : String) : String := "  '" ++ k ++ "',\n"

/-- The output splits as header, one rendered line per keyword, footer. -/
theorem genSqlKeywords_eq (text : String) :
    genSqlKeywords text =
      "export const KEYWORDS = [\n"
        ++ String.join ((extractKeywords text).map renderLine) ++ "]\n" := by
  apply String.ext
  simp only [genSqlKeywords, chunks, renderLine, String.data_join,
    String.data_append, List.map_append, List.map_cons, List.map_nil,
    List.flatten_append, List.flatten_cons, List.flatten_nil,
    List.append_nil, List.append_assoc]
  rfl

/-- Every extracted keyword is nonempty, is drawn from the class `[\w ]`,
and appears in the input inside a literal occurrence `kw("…")`. -/
theorem extractKeywords_spec {text : String} {k : String}
    (h : k ∈ extractKeywords text) :
    k ≠ "" ∧ (∀ c ∈ k.data, isKwChar c = true) ∧
      ∃ l1 l2, text.data = l1 ++ (pat k.data ++ l2) := by
  simp only [extractKeywords, List.mem_map] at h
  obtain ⟨l, hl, rfl⟩ := h
  obtain ⟨⟨hne, hall⟩, l1, l2, heq⟩ := findAll_mem_spec hl
  refine ⟨?_, hall, l1, l2, heq⟩
  intro hcon
  exact hne (congrArg String.data hcon)

/-- A character outside the class `[\w ]` and outside the fixed framing
characters never occurs in a rendered keyword line. -/
theorem count_join_renderLines {ks : List String}
    (hks : ∀ k ∈ ks, ∀ c ∈ k.data, isKwChar c = true) {b : Char}
    (hb : isKwChar b = false)
    (h1 : List.count b ("  '" : String).data = 0)
    (h2 : List.count b ("',\n" : String).data = 0) :
    (String.join (ks.map renderLine)).data.count b = 0 := by
  induction ks with
  | nil => rfl
  | cons k ks ih =>
    have hk : List.count b k.data = 0 := by
      rw [List.count_eq_zero]
      intro hmem
      rw [hks k (List.mem_cons_self k ks) b hmem] at hb
      exact absurd hb (by decide)
    have hks' : ∀ k ∈ ks, ∀ c ∈ k.data, isKwChar c = true :=
      fun k hk => hks k (List.mem_cons_of_mem _ hk)
    simp only [List.map_cons, String.data_join, List.map_cons,
      List.flatten_cons, List.count_append, renderLine, String.data_append]
    simp only [String.data_join] at ih
    rw [h1, hk, h2]
    simpa using ih hks'

/-- An input text assembled from a quote-free prefix `s0` and a list of
(keyword, following-separator) pairs: `s0 ++ kw("k1") ++ s1 ++ … ++
kw("kn") ++ sn`.  Any text whose pattern occurrences are separated by
quote-free stretches has this shape. -/
def assemble (s0 : List Char) (ps : List (List Char × List Char)) : List Char :=
  s0 ++ (ps.map fun q => pat q.1 ++ q.2).flatten

theorem findAll_assemble {s0 : List Char} (hs0 : quoteFree s0)
    {ps : List (List Char × List Char)}
    (hps : ∀ q ∈ ps, validKw q.1 ∧ quoteFree q.2) :
    findAll (assemble s0 ps) = ps.map Prod.fst := by
  induction ps generalizing s0 with
  | nil => simpa [assemble] using findAll_quoteFree hs0
  | cons q ps ih =>
    obtain ⟨hkq, hsq⟩ := hps q (List.mem_cons_self q ps)
    have hps' : ∀ q ∈ ps, validKw q.1 ∧ quoteFree q.2 :=
      fun q hq => hps q (List.mem_cons_of_mem _ hq)
    simp only [assemble, List.map_cons, List.flatten_cons, List.append_assoc]
    rw [findAll_append_pat hs0 hkq]
    simpa [assemble] using congrArg (q.1 :: ·) (ih hsq hps')

/-! ### Claim theorems -/

/-- C1: for every input text containing n non-overlapping occurrences of
the pattern `kw("…")` with captured contents k1, …, kn in order of
appearance (here: any text assembled from quote-free separators around
the occurrences), the generated output contains exactly those n keywords
as quoted list elements in that same first-to-last order, with duplicates
retained and not deduplicated. -/
theorem claim_C1 (s0 : List Char) (ps : List (List Char × List Char))
    (hs0 : quoteFree s0) (hps : ∀ q ∈ ps, validKw q.1 ∧ quoteFree q.2) :
    extractKeywords (String.mk (assemble s0 ps))
        = ps.map (fun q => String.mk q.1)
      ∧ genSqlKeywords (String.mk (assemble s0 ps))
        = "export const KEYWORDS = [\n"
          ++ String.join ((ps.map (fun q => String.mk q.1)).map renderLine)
          ++ "]\n" := by
  have hx : extractKeywords (String.mk (assemble s0 ps))
      = ps.map (fun q => String.mk q.1) := by
    show (findAll (assemble s0 ps)).map (fun l => String.mk l) = _
    rw [findAll_assemble hs0 hps, List.map_map]
    rfl
  exact ⟨hx, by rw [genSqlKeywords_eq, hx]⟩

/-- C1 witness: the text `x = kw("a") + kw("a")` (with a duplicate
keyword) yields the two captures in order, duplicates retained. -/
theorem claim_C1_witness :
    quoteFree ("x = " : String).data
      ∧ (∀ q ∈ ([(['a'], (" + " : String).data), (['a'], [])]
          : List (List Char × List Char)), validKw q.1 ∧ quoteFree q.2)
      ∧ extractKeywords (String.mk (assemble ("x = " : String).data
          [(['a'], (" + " : String).data), (['a'], [])])) = ["a", "a"] :=
  ⟨by decide, by decide,
    (claim_C1 ("x = " : String).data
      [(['a'], (" + " : String).data), (['a'], [])]
      (by decide) (by decide)).1⟩

/-- C2: for every input text the rendered output is a single named list
declaration — the header line `export const KEYWORDS = [`, each captured
keyword as a single-quoted string on its own line with a trailing comma,
and a closing bracket line — and the output contains exactly one opening
and one closing bracket, hence exactly one list construct. -/
theorem claim_C2 (text : String) :
    genSqlKeywords text
      = "export const KEYWORDS = [\n"
        ++ String.join ((extractKeywords text).map renderLine) ++ "]\n"
      ∧ (genSqlKeywords text).data.count '[' = 1
      ∧ (genSqlKeywords text).data.count ']' = 1 := by
  have hks : ∀ k ∈ extractKeywords text, ∀ c ∈ k.data, isKwChar c = true :=
    fun k hk => (extractKeywords_spec hk).2.1
  refine ⟨genSqlKeywords_eq text, ?_, ?_⟩
  · rw [genSqlKeywords_eq, String.data_append, String.data_append,
      List.count_append, List.count_append,
      count_join_renderLines hks (by decide) (by decide) (by decide)]
    decide
  · rw [genSqlKeywords_eq, String.data_append, String.data_append,
      List.count_append, List.count_append,
      count_join_renderLines hks (by decide) (by decide) (by decide)]
    decide

/-- C3: near-matches that lack the exact delimiter/quote structure — a
single-quoted argument `kw('text')` or an unquoted argument `kw(text)` —
capture nothing, while the exact double-quoted structure `kw("text")`
captures its content. -/
theorem claim_C3 :
    extractKeywords "kw('text')" = []
      ∧ extractKeywords "kw(text)" = []
      ∧ extractKeywords "kw(\"text\")" = ["text"] := by
  refine ⟨by decide, by decide, by decide⟩

/-- C4: an input with zero pattern occurrences is not an error: the
output is the empty list construct. -/
theorem claim_C4 (text : String) (h : extractKeywords text = []) :
    genSqlKeywords text = "export const KEYWORDS = [\n]\n" := by
  rw [genSqlKeywords_eq, h]
  rfl

/-- C4 witness: a marker-free input produces the empty list construct. -/
theorem claim_C4_witness :
    extractKeywords "no keywords here" = []
      ∧ genSqlKeywords "no keywords here" = "export const KEYWORDS = [\n]\n" :=
  ⟨by decide, claim_C4 "no keywords here" (by decide)⟩

/-- C5 counterexample: on a marker-free input the output is NOT the bare
`[\n]\n` claimed — the script always emits the `export const KEYWORDS = `
declaration before the bracket. -/
theorem claim_C5_counterexample :
    genSqlKeywords "" ≠ "[\n]\n" := by decide

/-- C5 (amended): a marker-free input yields exactly the bytes
`export const KEYWORDS = [\n]\n` (the empty list construct inside the
declaration), and the input `kw("select") kw("from") kw("group by")`
yields exactly the declaration followed by the three quoted keywords and
the closing bracket. -/
theorem claim_C5_amended :
    genSqlKeywords "" = "export const KEYWORDS = [\n]\n"
      ∧ genSqlKeywords "kw(\"select\") kw(\"from\") kw(\"group by\")"
        = "export const KEYWORDS = [\n  'select',\n  'from',\n  'group by',\n]\n" := by
  refine ⟨by decide, by decide⟩

/-- C6: the transformation is deterministic and idempotent — two runs on
states holding the same input text write byte-identical output, and
re-running the script on an unchanged input leaves the whole state
unchanged. -/
theorem claim_C6 :
    (∀ s1 s2 : ScriptState, s1.grammarJs = s2.grammarJs →
        (runScript s1).sqlTs = (runScript s2).sqlTs)
      ∧ ∀ s : ScriptState, runScript (runScript s) = runScript s := by
  exact ⟨fun s1 s2 h => by simp [runScript, h], fun s => rfl⟩

/-- C6 witness: two runs on the same input text, one with no previous
output file and one with stale content, write identical bytes. -/
theorem claim_C6_witness :
    (⟨"kw(\"a\")", none⟩ : ScriptState).grammarJs
        = (⟨"kw(\"a\")", some "stale"⟩ : ScriptState).grammarJs
      ∧ (runScript ⟨"kw(\"a\")", none⟩).sqlTs
        = (runScript ⟨"kw(\"a\")", some "stale"⟩).sqlTs :=
  ⟨rfl, claim_C6.1 ⟨"kw(\"a\")", none⟩ ⟨"kw(\"a\")", some "stale"⟩ rfl⟩

/-- C7: every captured keyword consists only of word characters (letters,
digits, underscores) and spaces, and comes from a literal non-overlapping
occurrence `kw("…")` of the fixed pattern in the input. -/
theorem claim_C7 (text k : String) (h : k ∈ extractKeywords text) :
    (∀ c ∈ k.data, isWordChar c = true ∨ c = ' ')
      ∧ ∃ l1 l2, text.data = l1 ++ (pat k.data ++ l2) := by
  obtain ⟨-, hall, hocc⟩ := extractKeywords_spec h
  refine ⟨fun c hc => ?_, hocc⟩
  have := hall c hc
  simpa [isKwChar, Bool.or_eq_true, decide_eq_true_eq] using this

/-- C7 witness: the capture `group by` from `kw("group by")` is made of
word characters and spaces. -/
theorem claim_C7_witness :
    "group by" ∈ extractKeywords "kw(\"group by\")"
      ∧ ∀ c ∈ ("group by" : String).data, isWordChar c = true ∨ c = ' ' :=
  ⟨by decide, (claim_C7 "kw(\"group by\")" "group by" (by decide)).1⟩

/-- C8: the destination is rebuilt from the input text alone on every
run — its new content is exactly the generated text, whatever it held
before, and the input file is untouched. -/
theorem claim_C8 (s : ScriptState) :
    (runScript s).sqlTs = some (genSqlKeywords s.grammarJs)
      ∧ (runScript s).grammarJs = s.grammarJs :=
  ⟨rfl, rfl⟩

/-- C9: an occurrence with an empty quoted argument, `kw("")`, never
matches the pattern and contributes no element; every captured keyword is
non-empty. -/
theorem claim_C9 :
    extractKeywords "kw(\"\")" = []
      ∧ genSqlKeywords "kw(\"\")" = "export const KEYWORDS = [\n]\n"
      ∧ ∀ (text k : String), k ∈ extractKeywords text → k ≠ "" :=
  ⟨by decide, by decide, fun _ _ h => (extractKeywords_spec h).1⟩

/-- C9 witness: the nonemptiness clause applied to the capture `x` of
`kw("x")`. -/
theorem claim_C9_witness :
    "x" ∈ extractKeywords "kw(\"x\")" ∧ ("x" : String) ≠ "" :=
  ⟨by decide, claim_C9.2.2 "kw(\"x\")" "x" (by decide)⟩

/-- C10: the marker is not anchored at a token boundary — in `mkw("x")`
the trailing `kw("x")` still matches, so the quoted content is captured
and emitted. -/
theorem claim_C10 :
    extractKeywords "mkw(\"x\")" = ["x"]
      ∧ genSqlKeywords "mkw(\"x\")" = "export const KEYWORDS = [\n  'x',\n]\n" := by
  refine ⟨by decide, by decide⟩
